import Mathlib

/-!
Verification of the rotating-ASCII renderer generated by `Rotating ASCII.py`.

The generated standalone script contains a small 3D pipeline:
`rotate_point` (sequential Euler rotation X, then Y, then Z),
a perspective projector (`factor = DIST / (DIST + rz + 2)` followed by
Python `int(...)` conversion), a Bresenham line rasterizer with optional
linear color interpolation, and a frame-compositing loop that records
in-bounds pixels (last write wins in color mode).

Python's floating-point arithmetic is modelled exactly: real numbers for
the trigonometric rotation, rational numbers for the projector and for the
color-interpolation fractions.  Python's `int(...)` conversion (truncation
toward zero) is modelled by `pyInt`.
-/

/-! ## Definitions -/

/-- Python's `int(...)` applied to a rational value: truncation toward zero
(floor for non-negative arguments, ceiling for negative ones). -/

def pyInt (q : ℚ) : ℤ := if q < 0 then ⌈q⌉ else ⌊q⌋

/-- The perspective projector of the generated script:
`factor = DIST / (DIST + rz + 2)`,
`px = int(TRANSLATE_X + factor * rx * SCALE_X)`,
`py = int(TRANSLATE_Y - factor * ry * SCALE_Y)`. -/

def project (D Sx Sy : ℚ) (Cx Cy : ℤ) (x y z : ℚ) : ℤ × ℤ :=
  let factor := D / (D + z + 2)
  (pyInt ((Cx : ℚ) + factor * x * Sx), pyInt ((Cy : ℚ) - factor * y * Sy))

/-! ## Rotation transform

`rotate_point` from the generated script, modelled over the reals
(idealizing Python's float trigonometry). -/


/-- `rotate_point(x, y, z, angle_x, angle_y, angle_z)` from the generated
script: rotation about X, then Y, then Z, each with the right-handed
formulas written out in the source. -/

noncomputable def rotate_point (x y z ax ay az : ℝ) : ℝ × ℝ × ℝ :=
  let cos_x := Real.cos ax
  let sin_x := Real.sin ax
  let y1 := y * cos_x - z * sin_x
  let z1 := y * sin_x + z * cos_x
  let cos_y := Real.cos ay
  let sin_y := Real.sin ay
  let x2 := x * cos_y + z1 * sin_y
  let z2 := -x * sin_y + z1 * cos_y
  let cos_z := Real.cos az
  let sin_z := Real.sin az
  let x3 := x2 * cos_z - y1 * sin_z
  let y3 := x2 * sin_z + y1 * cos_z
  (x3, y3, z2)

/-- Single-axis rotation about X (the first block of `rotate_point`). -/

noncomputable def rotX (a : ℝ) (p : ℝ × ℝ × ℝ) : ℝ × ℝ × ℝ :=
  (p.1, p.2.1 * Real.cos a - p.2.2 * Real.sin a, p.2.1 * Real.sin a + p.2.2 * Real.cos a)

/-- Single-axis rotation about Y (the second block of `rotate_point`). -/

noncomputable def rotY (a : ℝ) (p : ℝ × ℝ × ℝ) : ℝ × ℝ × ℝ :=
  (p.1 * Real.cos a + p.2.2 * Real.sin a, p.2.1, -p.1 * Real.sin a + p.2.2 * Real.cos a)

/-- Single-axis rotation about Z (the third block of `rotate_point`). -/

noncomputable def rotZ (a : ℝ) (p : ℝ × ℝ × ℝ) : ℝ × ℝ × ℝ :=
  (p.1 * Real.cos a - p.2.1 * Real.sin a, p.1 * Real.sin a + p.2.1 * Real.cos a, p.2.2)

/-! ## Bresenham rasterizer

The `bresenham` function of the generated script.  The `while True` loop is
modelled with explicit fuel; `bresenhamAux` performs one loop iteration per
unit of fuel.  The per-iteration counter `k` (used only for the color
fraction `k / steps`) is carried in the emitted trace, so that the colored
variant is the trace with each point's color computed from its `k`. -/


/-- One fueled unfolding of `bresenham`'s `while True` loop.  State:
current point `(cx, cy)`, error accumulator `err`, iteration counter `k`.
Each iteration emits the current point, stops when `(cx, cy) = (x2, y2)`,
otherwise steps `cx` by `sx` when `2*err > -dy`, steps `cy` by `sy` when
`2*err < dx`, and updates `err` accordingly. -/

def bresenhamAux (x2 y2 sx sy dx dy : ℤ) : ℕ → ℤ → ℤ → ℤ → ℕ → List (ℤ × ℤ × ℕ)
  | 0, _, _, _, _ => []
  | fuel+1, cx, cy, err, k =>
    (cx, cy, k) ::
      (if cx = x2 ∧ cy = y2 then []
       else
         bresenhamAux x2 y2 sx sy dx dy fuel
           (if 2 * err > -dy then cx + sx else cx)
           (if 2 * err < dx then cy + sy else cy)
           ((if 2 * err > -dy then err - dy else err) + (if 2 * err < dx then dx else 0))
           (k + 1))

/-- The point/counter trace of `bresenham(x1, y1, x2, y2)`: initial state
`dx = abs(x2-x1)`, `dy = abs(y2-y1)`, `sx = ±1`, `sy = ±1`,
`err = dx - dy`, started with fuel `dx + dy + 1` (shown sufficient below). -/

def bresenhamTrace (x1 y1 x2 y2 : ℤ) : List (ℤ × ℤ × ℕ) :=
  let dx := |x2 - x1|
  let dy := |y2 - y1|
  let sx : ℤ := if x1 < x2 then 1 else -1
  let sy : ℤ := if y1 < y2 then 1 else -1
  bresenhamAux x2 y2 sx sy dx dy ((dx + dy).toNat + 1) x1 y1 (dx - dy) 0

/-- The uncolored point list returned by `bresenham`. -/

def bresenham (x1 y1 x2 y2 : ℤ) : List (ℤ × ℤ) :=
  (bresenhamTrace x1 y1 x2 y2).map (fun t => (t.1, t.2.1))

/-! ## Color interpolation -/


/-- `steps = max(dx, dy, 1)` from `bresenham` (avoids dividing by zero for
coincident endpoints). -/

def bresSteps (x1 y1 x2 y2 : ℤ) : ℤ := max (max |x2 - x1| |y2 - y1|) 1

/-- Per-channel color interpolation of the source, over exact rationals:
`int(c1 + fraction * (c2 - c1))` with `fraction = k / steps`. -/

def interpColor (c1 c2 : ℤ × ℤ × ℤ) (k : ℕ) (st : ℤ) : ℤ × ℤ × ℤ :=
  (pyInt ((c1.1 : ℚ) + ((k : ℚ) / (st : ℚ)) * ((c2.1 : ℚ) - (c1.1 : ℚ))),
   pyInt ((c1.2.1 : ℚ) + ((k : ℚ) / (st : ℚ)) * ((c2.2.1 : ℚ) - (c1.2.1 : ℚ))),
   pyInt ((c1.2.2 : ℚ) + ((k : ℚ) / (st : ℚ)) * ((c2.2.2 : ℚ) - (c1.2.2 : ℚ))))

/-- The colored point list returned by `bresenham` when both endpoint
colors are supplied: each traced point is tagged with the color computed
from its iteration counter. -/

def bresenhamColor (x1 y1 x2 y2 : ℤ) (c1 c2 : ℤ × ℤ × ℤ) :
    List (ℤ × ℤ × ℤ × ℤ × ℤ) :=
  (bresenhamTrace x1 y1 x2 y2).map
    (fun t => (t.1, t.2.1, interpColor c1 c2 t.2.2 (bresSteps x1 y1 x2 y2)))

/-- The color `c` lies channel-wise in the closed interval spanned by the
colors `c1` and `c2`. -/

def betweenColor (c1 c2 c : ℤ × ℤ × ℤ) : Prop :=
  min c1.1 c2.1 ≤ c.1 ∧ c.1 ≤ max c1.1 c2.1 ∧
    min c1.2.1 c2.2.1 ≤ c.2.1 ∧ c.2.1 ≤ max c1.2.1 c2.2.1 ∧
    min c1.2.2 c2.2.2 ≤ c.2.2 ∧ c.2.2 ≤ max c1.2.2 c2.2.2

/-- Each channel of `c` is an 8-bit value. -/

def byteColor (c : ℤ × ℤ × ℤ) : Prop :=
  0 ≤ c.1 ∧ c.1 ≤ 255 ∧ 0 ≤ c.2.1 ∧ c.2.1 ≤ 255 ∧ 0 ≤ c.2.2 ∧ c.2.2 ≤ 255

instance (c1 c2 c : ℤ × ℤ × ℤ) : Decidable (betweenColor c1 c2 c) := by
  unfold betweenColor
  exact inferInstance

instance (c : ℤ × ℤ × ℤ) : Decidable (byteColor c) := by
  unfold byteColor
  exact inferInstance

/-! ## Frame compositor

The per-frame loop `for i, j in edges: ... for pt in line_points: if
0 <= px < WIDTH and 0 <= py < HEIGHT: record pt` of the generated script.
The Python dict (color mode) is modelled as a function to `Option` color,
the Python set (plain mode) as a function to `Bool`; projected points and
vertex colors are supplied as functions of the vertex index. -/


/-- The bounds test `0 <= px < WIDTH and 0 <= py < HEIGHT`. -/

def inBounds (W H px py : ℤ) : Prop := 0 ≤ px ∧ px < W ∧ 0 ≤ py ∧ py < H

instance (W H px py : ℤ) : Decidable (inBounds W H px py) := by
  unfold inBounds
  exact inferInstance

/-- Record one rasterized colored line into the frame dict:
`object_points[(px, py)] = col` for each in-bounds point, later points
overwriting earlier ones. -/

def writeLineColor (W H : ℤ) (m : ℤ × ℤ → Option (ℤ × ℤ × ℤ))
    (line : List (ℤ × ℤ × ℤ × ℤ × ℤ)) : ℤ × ℤ → Option (ℤ × ℤ × ℤ) :=
  line.foldl
    (fun m pt =>
      if inBounds W H pt.1 pt.2.1
        then fun q => if q = (pt.1, pt.2.1) then some pt.2.2 else m q
        else m)
    m

/-- The colored line rasterized for edge `(i, j)`: endpoints are the
projected vertices, colors the vertex colors. -/

def edgeLineColor (proj : ℕ → ℤ × ℤ) (col : ℕ → ℤ × ℤ × ℤ) (e : ℕ × ℕ) :
    List (ℤ × ℤ × ℤ × ℤ × ℤ) :=
  bresenhamColor (proj e.1).1 (proj e.1).2 (proj e.2).1 (proj e.2).2
    (col e.1) (col e.2)

/-- The color-mode frame dict after compositing all edges in order. -/

def compositeColor (W H : ℤ) (proj : ℕ → ℤ × ℤ) (col : ℕ → ℤ × ℤ × ℤ)
    (edges : List (ℕ × ℕ)) : ℤ × ℤ → Option (ℤ × ℤ × ℤ) :=
  edges.foldl (fun m e => writeLineColor W H m (edgeLineColor proj col e))
    (fun _ => none)

/-- Record one rasterized plain line into the frame set. -/

def writeLinePlain (W H : ℤ) (s : ℤ × ℤ → Bool) (line : List (ℤ × ℤ)) :
    ℤ × ℤ → Bool :=
  line.foldl
    (fun s pt =>
      if inBounds W H pt.1 pt.2 then fun q => if q = pt then true else s q else s)
    s

/-- The plain-mode frame set after compositing all edges in order. -/

def compositeSet (W H : ℤ) (proj : ℕ → ℤ × ℤ) (edges : List (ℕ × ℕ)) :
    ℤ × ℤ → Bool :=
  edges.foldl
    (fun s e =>
      writeLinePlain W H s
        (bresenham (proj e.1).1 (proj e.1).2 (proj e.2).1 (proj e.2).2))
    (fun _ => false)

/-- The color that a single rasterized line contributes at coordinate `p`:
the color of the last point of the line at `p`, if any. -/

def lastColorAt : List (ℤ × ℤ × ℤ × ℤ × ℤ) → ℤ × ℤ → Option (ℤ × ℤ × ℤ)
  | [], _ => none
  | pt :: l, p =>
    match lastColorAt l p with
    | some c => some c
    | none => if p = (pt.1, pt.2.1) then some pt.2.2 else none

/-- Projected points used by the C5 witness: two crossing diagonals. -/

def projW : ℕ → ℤ × ℤ := fun i => [((0 : ℤ), (0 : ℤ)), (2, 2), (2, 0), (0, 2)].getD i (0, 0)

/-- Vertex colors used by the C5 witness. -/

def colW : ℕ → ℤ × ℤ × ℤ :=
  fun i => [((10 : ℤ), (10 : ℤ), (10 : ℤ)), (10, 10, 10), (200, 0, 0), (200, 0, 0)].getD i (0, 0, 0)

/-! ## Export operator -/


/-- Result of `RotatingASCIIOperator.execute`: either the operator cancels
with an error report, or it finishes after emitting the renderer script
built from the vertex and edge lists. -/

inductive ExportResult where
  | cancelled : ExportResult
  | finished : List (ℚ × ℚ × ℚ) → List (ℕ × ℕ) → ExportResult
deriving DecidableEq

/-- Control flow of `RotatingASCIIOperator.execute`: a missing or non-mesh
object is rejected, then a mesh with no vertices is rejected
(`"Mesh has no vertices"`, `return CANCELLED`) before any script text is
generated; only otherwise is the renderer script emitted and the animation
able to start.  (The geometric normalization of the vertices, which does
not affect which branch is taken, is elided: the payload carries the raw
lists.) -/

def executeExport (isMesh : Bool) (meshVertices : List (ℚ × ℚ × ℚ))
    (meshEdges : List (ℕ × ℕ)) : ExportResult :=
  if !isMesh then ExportResult.cancelled
  else if meshVertices.length = 0 then ExportResult.cancelled
  else ExportResult.finished meshVertices meshEdges

/-! ## Theorems -/

theorem pyInt_intCast (n : ℤ) : pyInt (n : ℚ) = n := by
  unfold pyInt
  split <;> simp

theorem pyInt_of_nonneg {q : ℚ} (h : 0 ≤ q) : pyInt q = ⌊q⌋ := by
  unfold pyInt
  rw [if_neg (not_lt.mpr h)]

/-- Truncation toward zero stays inside any integer interval containing the
argument. -/

theorem pyInt_mem_Icc {lo hi : ℤ} {q : ℚ} (hlo : (lo : ℚ) ≤ q) (hhi : q ≤ (hi : ℚ)) :
    lo ≤ pyInt q ∧ pyInt q ≤ hi := by
  unfold pyInt
  split
  · constructor
    · exact_mod_cast (Int.ceil_le_ceil hlo).trans_eq' (Int.ceil_intCast lo).symm
    · exact (Int.ceil_le.mpr hhi)
  · constructor
    · exact (Int.le_floor.mpr hlo)
    · exact_mod_cast (Int.floor_le_floor hhi).trans_eq (Int.floor_intCast hi)

/-- C1 counterexample: with `D = 4`, `Sx = 20`, `Cx = 40`, `x = -4`, `z = 0`
the horizontal argument is `40 - 160/3 = -40/3`; the projector returns its
truncation `-13`, while the floor is `-14`. -/

theorem project_not_floor_cex :
    (project 4 20 10 40 12 (-4) 0 0).1 = -13 ∧
      ⌊(40 : ℚ) + 4 / (4 + 0 + 2) * (-4) * 20⌋ = -14 := by
  have harg : ((40 : ℚ) + 4 / (4 + 0 + 2) * (-4) * 20) = -(40 / 3) := by norm_num
  constructor
  · show pyInt ((40 : ℚ) + 4 / (4 + 0 + 2) * (-4) * 20) = -13
    rw [harg, pyInt, if_pos (by norm_num), Int.ceil_neg, neg_eq_iff_eq_neg]
    norm_num
  · rw [harg, Int.floor_neg, neg_eq_iff_eq_neg, neg_neg, Int.ceil_eq_iff]
    constructor <;> norm_num

/-- C1 amended: the projector removes the fractional part by truncation
toward zero (Python `int`), i.e. floor for a non-negative argument and
ceiling for a negative one, on each coordinate. -/

theorem project_trunc (D Sx Sy : ℚ) (Cx Cy : ℤ) (x y z : ℚ) :
    project D Sx Sy Cx Cy x y z =
      (if (Cx : ℚ) + D / (D + z + 2) * x * Sx < 0
         then ⌈(Cx : ℚ) + D / (D + z + 2) * x * Sx⌉
         else ⌊(Cx : ℚ) + D / (D + z + 2) * x * Sx⌋,
       if (Cy : ℚ) - D / (D + z + 2) * y * Sy < 0
         then ⌈(Cy : ℚ) - D / (D + z + 2) * y * Sy⌉
         else ⌊(Cy : ℚ) - D / (D + z + 2) * y * Sy⌋) := by
  rfl

theorem rotate_point_eq_comp (x y z ax ay az : ℝ) :
    rotate_point x y z ax ay az = rotZ az (rotY ay (rotX ax (x, y, z))) := rfl

theorem rotX_neg_rotX (a : ℝ) (p : ℝ × ℝ × ℝ) : rotX (-a) (rotX a p) = p := by
  have h := Real.sin_sq_add_cos_sq a
  obtain ⟨px, py, pz⟩ := p
  simp only [rotX, Real.cos_neg, Real.sin_neg, Prod.mk.injEq]
  exact ⟨trivial, by linear_combination py * h, by linear_combination pz * h⟩

theorem rotY_neg_rotY (a : ℝ) (p : ℝ × ℝ × ℝ) : rotY (-a) (rotY a p) = p := by
  have h := Real.sin_sq_add_cos_sq a
  obtain ⟨px, py, pz⟩ := p
  simp only [rotY, Real.cos_neg, Real.sin_neg, Prod.mk.injEq]
  exact ⟨by linear_combination px * h, trivial, by linear_combination pz * h⟩

theorem rotZ_neg_rotZ (a : ℝ) (p : ℝ × ℝ × ℝ) : rotZ (-a) (rotZ a p) = p := by
  have h := Real.sin_sq_add_cos_sq a
  obtain ⟨px, py, pz⟩ := p
  simp only [rotZ, Real.cos_neg, Real.sin_neg, Prod.mk.injEq]
  exact ⟨by linear_combination px * h, by linear_combination py * h, trivial⟩

/-- C8: rotating by `(0,0,0)` is the identity, and undoing a rotation with
the negated angles applied in reverse axis order (Z, then Y, then X)
recovers the original point, exactly over the reals. -/

theorem rotate_point_zero_and_inverse (x y z ax ay az : ℝ) :
    rotate_point x y z 0 0 0 = (x, y, z) ∧
      rotX (-ax) (rotY (-ay) (rotZ (-az) (rotate_point x y z ax ay az))) = (x, y, z) := by
  constructor
  · simp only [rotate_point, Real.cos_zero, Real.sin_zero, Prod.mk.injEq]
    refine ⟨by ring, by ring, by ring⟩
  · rw [rotate_point_eq_comp, rotZ_neg_rotZ, rotY_neg_rotY, rotX_neg_rotX]

theorem getLast?_cons_of_ne_nil {α : Type} (x : α) {l : List α} (h : l ≠ []) :
    (x :: l).getLast? = l.getLast? := by
  cases l with
  | nil => exact absurd rfl h
  | cons y t => exact List.getLast?_cons_cons ..

/-- Loop invariant for the x-dominant octants (`0 ≤ dy ≤ dx`).  A reachable
state is described by the number `a` of x-steps and `b` of y-steps taken so
far; from it the loop emits exactly `dx - a + 1` further points, the last
one being `(x2, y2)`, with iteration counters growing from `k` to `k + n`. -/

theorem bresenhamAux_dominant (x2 y2 sx sy dx dy : ℤ)
    (hsx : sx = 1 ∨ sx = -1) (hdy0 : 0 ≤ dy) (hdom : dy ≤ dx) :
    ∀ (n : ℕ) (fuel : ℕ) (a b err : ℤ) (k : ℕ),
      0 ≤ a → a ≤ dx → 0 ≤ b → b ≤ dy →
      dx - a = (n : ℤ) →
      err = dx - dy + b * dx - a * dy →
      dx - 2 * dy ≤ 2 * err →
      (dx = dy → a = b) →
      n < fuel →
      ∃ L, bresenhamAux x2 y2 sx sy dx dy fuel
          (x2 - (dx - a) * sx) (y2 - (dy - b) * sy) err k = L ∧
        L.length = n + 1 ∧
        L.head? = some (x2 - (dx - a) * sx, y2 - (dy - b) * sy, k) ∧
        L.getLast? = some (x2, y2, k + n) ∧
        ∀ t ∈ L, t.2.2 ≤ k + n := by
  intro n
  induction n with
  | zero =>
    intro fuel a b err k ha0 hadx hb0 hbdy hna herr hinv hdd hfuel
    have hdx0 : (0:ℤ) ≤ dx := le_trans hdy0 hdom
    have ha : a = dx := by omega
    have hb : b = dy := by
      by_contra hbne
      have hb1 : b ≤ dy - 1 := by omega
      have hmul : b * dx ≤ (dy - 1) * dx := mul_le_mul_of_nonneg_right hb1 hdx0
      have h1 : 2 * err ≤ -2 * dy := by
        subst ha herr
        linarith
      linarith
    subst ha hb
    simp only [sub_self, zero_mul, sub_zero, Nat.add_zero]
    obtain ⟨f, rfl⟩ : ∃ f, fuel = f + 1 := ⟨fuel - 1, by omega⟩
    refine ⟨[(x2, y2, k)], ?_, rfl, rfl, rfl, ?_⟩
    · simp [bresenhamAux]
    · intro t ht
      simp only [List.mem_singleton] at ht
      subst ht
      exact le_refl k
  | succ m ih =>
    intro fuel a b err k ha0 hadx hb0 hbdy hna herr hinv hdd hfuel
    have hdx0 : (0:ℤ) ≤ dx := le_trans hdy0 hdom
    have ha : a < dx := by omega
    obtain ⟨f, rfl⟩ : ∃ f, fuel = f + 1 := ⟨fuel - 1, by omega⟩
    have hcx : x2 - (dx - a) * sx ≠ x2 := by
      intro hEq
      rcases mul_eq_zero.mp (sub_eq_self.mp hEq) with h0 | h0
      · omega
      · rcases hsx with h | h <;> omega
    have hx : 2 * err > -dy := by
      rcases eq_or_lt_of_le hdom with heq | hlt
      · have hab : a = b := hdd heq.symm
        have herr0 : err = 0 := by
          subst heq hab
          rw [herr]; ring
        rw [herr0]
        omega
      · omega
    by_cases hy : 2 * err < dx
    · -- the minor axis steps together with the major one
      have hbdy' : b < dy := by
        by_contra hbge
        have hb' : b = dy := by omega
        subst hb'
        have hmul : a * b ≤ (dx - 1) * b := mul_le_mul_of_nonneg_right (by omega) hdy0
        have herr2 : dx ≤ err := by rw [herr]; linarith
        linarith
      have ihres := ih f (a + 1) (b + 1) (err - dy + dx) (k + 1)
        (by omega) (by omega) (by omega) (by omega) (by omega)
        (by rw [herr]; ring) (by linarith) (fun hq => by have := hdd hq; omega) (by omega)
      obtain ⟨L', hL'eq, hL'len, hL'head, hL'last, hL'mem⟩ := ihres
      refine ⟨(x2 - (dx - a) * sx, y2 - (dy - b) * sy, k) :: L', ?_, ?_, rfl, ?_, ?_⟩
      · simp only [bresenhamAux]
        rw [if_neg (fun hc => hcx hc.1)]
        have hxT : (2 * err > -dy) = True := eq_true hx
        have hyT : (2 * err < dx) = True := eq_true hy
        simp only [hxT, hyT, if_true]
        congr 1
        rw [show x2 - (dx - a) * sx + sx = x2 - (dx - (a + 1)) * sx by ring,
          show y2 - (dy - b) * sy + sy = y2 - (dy - (b + 1)) * sy by ring]
        exact hL'eq
      · simp [hL'len]
      · rw [getLast?_cons_of_ne_nil _ (by intro h; rw [h] at hL'len; simp at hL'len)]
        rw [hL'last]
        have : k + 1 + m = k + (m + 1) := by omega
        rw [this]
      · intro t ht
        rcases List.mem_cons.mp ht with h | h
        · subst h; simp
        · have := hL'mem t h; omega
    · -- only the major axis steps
      push_neg at hy
      have hdd' : dx = dy → a + 1 = b := by
        intro hq
        exfalso
        have hab := hdd hq
        have herr0 : err = 0 := by
          subst hq hab
          rw [herr]; ring
        rw [herr0] at hy
        omega
      have ihres := ih f (a + 1) b (err - dy) (k + 1)
        (by omega) (by omega) hb0 hbdy (by omega)
        (by rw [herr]; ring) (by linarith) hdd' (by omega)
      obtain ⟨L', hL'eq, hL'len, hL'head, hL'last, hL'mem⟩ := ihres
      refine ⟨(x2 - (dx - a) * sx, y2 - (dy - b) * sy, k) :: L', ?_, ?_, rfl, ?_, ?_⟩
      · simp only [bresenhamAux]
        rw [if_neg (fun hc => hcx hc.1)]
        have hxT : (2 * err > -dy) = True := eq_true hx
        have hyF : (2 * err < dx) = False := eq_false (not_lt.mpr hy)
        simp only [hxT, hyF, if_true, if_false, add_zero]
        congr 1
        rw [show x2 - (dx - a) * sx + sx = x2 - (dx - (a + 1)) * sx by ring]
        exact hL'eq
      · simp [hL'len]
      · rw [getLast?_cons_of_ne_nil _ (by intro h; rw [h] at hL'len; simp at hL'len)]
        rw [hL'last]
        have : k + 1 + m = k + (m + 1) := by omega
        rw [this]
      · intro t ht
        rcases List.mem_cons.mp ht with h | h
        · subst h; simp
        · have := hL'mem t h; omega

/-- Swapping the roles of the two axes mirrors the loop exactly: the
x-step condition of the swapped run is the y-step condition of the
original one and vice versa, and the error accumulator is negated. -/

theorem bresenhamAux_swap (x2 y2 sx sy dx dy : ℤ) :
    ∀ (fuel : ℕ) (cx cy err : ℤ) (k : ℕ),
      bresenhamAux y2 x2 sy sx dy dx fuel cy cx (-err) k =
        (bresenhamAux x2 y2 sx sy dx dy fuel cx cy err k).map
          (fun t => (t.2.1, t.1, t.2.2)) := by
  intro fuel
  induction fuel with
  | zero => intros; rfl
  | succ f ih =>
    intro cx cy err k
    simp only [bresenhamAux, List.map_cons]
    by_cases hc : cx = x2 ∧ cy = y2
    · rw [if_pos ⟨hc.2, hc.1⟩, if_pos hc]
      rfl
    · rw [if_neg (fun h => hc ⟨h.2, h.1⟩), if_neg hc]
      congr 1
      have h1 : (2 * -err > -dx) ↔ (2 * err < dx) := by omega
      have h2 : (2 * -err < dy) ↔ (2 * err > -dy) := by omega
      simp only [h1, h2]
      have e3 : ((if 2 * err < dx then -err - dx else -err) +
            (if 2 * err > -dy then dy else 0)) =
          -((if 2 * err > -dy then err - dy else err) +
            (if 2 * err < dx then dx else 0)) := by
        by_cases hA : 2 * err > -dy <;> by_cases hB : 2 * err < dx <;>
          simp [hA, hB] <;> ring
      rw [e3, ih]

/-- Full characterization of the Bresenham trace: exactly
`max |x2-x1| |y2-y1| + 1` points, starting at `(x1, y1)` with counter `0`,
ending at `(x2, y2)` with counter `max |x2-x1| |y2-y1|`, every counter
bounded by that maximum. -/

theorem bresenhamTrace_spec (x1 y1 x2 y2 : ℤ) :
    ∃ L, bresenhamTrace x1 y1 x2 y2 = L ∧
      L.length = (max |x2 - x1| |y2 - y1|).toNat + 1 ∧
      L.head? = some (x1, y1, 0) ∧
      L.getLast? = some (x2, y2, (max |x2 - x1| |y2 - y1|).toNat) ∧
      ∀ t ∈ L, t.2.2 ≤ (max |x2 - x1| |y2 - y1|).toNat := by
  have hdx0 : (0:ℤ) ≤ |x2 - x1| := abs_nonneg _
  have hdy0 : (0:ℤ) ≤ |y2 - y1| := abs_nonneg _
  set dx := |x2 - x1| with hdxd
  set dy := |y2 - y1| with hdyd
  set sx : ℤ := if x1 < x2 then 1 else -1 with hsxd
  set sy : ℤ := if y1 < y2 then 1 else -1 with hsyd
  have hsx : sx = 1 ∨ sx = -1 := by rw [hsxd]; split <;> simp
  have hsy : sy = 1 ∨ sy = -1 := by rw [hsyd]; split <;> simp
  have hx1 : x1 = x2 - dx * sx := by
    by_cases h : x1 < x2
    · rw [hsxd, if_pos h, hdxd, abs_of_nonneg (by omega)]; ring
    · rw [hsxd, if_neg h, hdxd, abs_of_nonpos (by omega)]; ring
  have hy1 : y1 = y2 - dy * sy := by
    by_cases h : y1 < y2
    · rw [hsyd, if_pos h, hdyd, abs_of_nonneg (by omega)]; ring
    · rw [hsyd, if_neg h, hdyd, abs_of_nonpos (by omega)]; ring
  have htr : bresenhamTrace x1 y1 x2 y2 =
      bresenhamAux x2 y2 sx sy dx dy ((dx + dy).toNat + 1) x1 y1 (dx - dy) 0 := rfl
  rcases le_total dy dx with hdom | hdom
  · -- x-dominant octants
    have hmax : max dx dy = dx := max_eq_left hdom
    obtain ⟨L, hLeq, hLlen, hLhead, hLlast, hLmem⟩ :=
      bresenhamAux_dominant x2 y2 sx sy dx dy hsx hdy0 hdom
        dx.toNat ((dx + dy).toNat + 1) 0 0 (dx - dy) 0
        le_rfl hdx0 le_rfl hdy0
        (by rw [sub_zero, Int.toNat_of_nonneg hdx0]) (by ring) (by linarith)
        (fun _ => rfl) (by omega)
    rw [sub_zero, sub_zero, ← hx1, ← hy1] at hLeq hLhead
    refine ⟨L, ?_, ?_, hLhead, ?_, ?_⟩
    · rw [htr, hLeq]
    · rw [hLlen, hmax]
    · rw [hLlast, hmax, Nat.zero_add]
    · intro t ht
      have := hLmem t ht
      rw [hmax]
      omega
  · -- y-dominant octants: mirror through the axis swap
    have hmax : max dx dy = dy := max_eq_right hdom
    obtain ⟨L0, hLeq, hLlen, hLhead, hLlast, hLmem⟩ :=
      bresenhamAux_dominant y2 x2 sy sx dy dx hsy hdx0 hdom
        dy.toNat ((dx + dy).toNat + 1) 0 0 (dy - dx) 0
        le_rfl hdy0 le_rfl hdx0
        (by rw [sub_zero, Int.toNat_of_nonneg hdy0]) (by ring) (by linarith)
        (fun _ => rfl) (by omega)
    rw [sub_zero, sub_zero, ← hy1, ← hx1] at hLeq hLhead
    have hswap := bresenhamAux_swap y2 x2 sy sx dy dx ((dx + dy).toNat + 1)
      y1 x1 (dy - dx) 0
    rw [neg_sub, hLeq] at hswap
    refine ⟨L0.map (fun t => (t.2.1, t.1, t.2.2)), ?_, ?_, ?_, ?_, ?_⟩
    · rw [htr, hswap]
    · rw [List.length_map, hLlen, hmax]
    · rw [List.head?_map, hLhead]
      rfl
    · rw [List.getLast?_map, hLlast, hmax]
      simp
    · intro t ht
      obtain ⟨t0, ht0, rfl⟩ := List.mem_map.mp ht
      have := hLmem t0 ht0
      rw [hmax]
      simpa using this

/-- C2: for any two integer endpoints the Bresenham point list is
non-empty, its first element is `(x1, y1)` and its last is `(x2, y2)`. -/

theorem bresenham_endpoints (x1 y1 x2 y2 : ℤ) :
    bresenham x1 y1 x2 y2 ≠ [] ∧
      (bresenham x1 y1 x2 y2).head? = some (x1, y1) ∧
      (bresenham x1 y1 x2 y2).getLast? = some (x2, y2) := by
  obtain ⟨L, hLeq, hLlen, hLhead, hLlast, -⟩ := bresenhamTrace_spec x1 y1 x2 y2
  unfold bresenham
  rw [hLeq]
  refine ⟨?_, ?_, ?_⟩
  · intro h
    rw [List.map_eq_nil_iff] at h
    rw [h] at hLlen
    simp at hLlen
  · rw [List.head?_map, hLhead]
    rfl
  · rw [List.getLast?_map, hLlast]
    rfl

/-- C7: the rasterizer terminates within its fuel and emits at most
`max |x2-x1| |y2-y1| + 1` points. -/

theorem bresenham_length_le (x1 y1 x2 y2 : ℤ) :
    (bresenham x1 y1 x2 y2).length ≤ (max |x2 - x1| |y2 - y1|).toNat + 1 := by
  obtain ⟨L, hLeq, hLlen, -, -, -⟩ := bresenhamTrace_spec x1 y1 x2 y2
  unfold bresenham
  rw [hLeq, List.length_map, hLlen]

/-- C3 counterexample: `(1, 0)` is on the rasterized line from `(0,0)` to
`(2,1)` but not on the reversed line from `(2,1)` to `(0,0)`: the two
point sets differ, so the rasterizer is not symmetric. -/

theorem bresenham_not_symmetric_cex :
    (1, 0) ∈ bresenham 0 0 2 1 ∧ (1, 0) ∉ bresenham 2 1 0 0 := by
  decide

/-- C3 amended: reversing the endpoints preserves the number of emitted
points and exchanges the first and last point, though the full point sets
can differ. -/

theorem bresenham_reverse_endpoints (x1 y1 x2 y2 : ℤ) :
    (bresenham x2 y2 x1 y1).length = (bresenham x1 y1 x2 y2).length ∧
      (bresenham x2 y2 x1 y1).head? = some (x2, y2) ∧
      (bresenham x2 y2 x1 y1).getLast? = some (x1, y1) := by
  obtain ⟨L, hLeq, hLlen, hLhead, hLlast, -⟩ := bresenhamTrace_spec x1 y1 x2 y2
  obtain ⟨L', hLeq', hLlen', hLhead', hLlast', -⟩ := bresenhamTrace_spec x2 y2 x1 y1
  unfold bresenham
  rw [hLeq, hLeq']
  refine ⟨?_, ?_, ?_⟩
  · rw [List.length_map, List.length_map, hLlen, hLlen',
      abs_sub_comm x1 x2, abs_sub_comm y1 y2]
  · rw [List.head?_map, hLhead']
    rfl
  · rw [List.getLast?_map, hLlast']
    rfl

theorem interpColor_zero (c1 c2 : ℤ × ℤ × ℤ) (st : ℤ) :
    interpColor c1 c2 0 st = c1 := by
  obtain ⟨r, g, b⟩ := c1
  unfold interpColor
  simp [pyInt_intCast]

theorem interpColor_same (c : ℤ × ℤ × ℤ) (k : ℕ) (st : ℤ) :
    interpColor c c k st = c := by
  obtain ⟨r, g, b⟩ := c
  unfold interpColor
  simp [pyInt_intCast]

theorem interpColor_last (c1 c2 : ℤ × ℤ × ℤ) (k : ℕ) (st : ℤ)
    (hst : st ≠ 0) (hk : (k : ℤ) = st) :
    interpColor c1 c2 k st = c2 := by
  have hq : ((k : ℚ) / (st : ℚ)) = 1 := by
    rw [show ((k : ℚ)) = ((st : ℚ)) by exact_mod_cast hk]
    exact div_self (by exact_mod_cast hst)
  obtain ⟨r1, g1, b1⟩ := c1
  obtain ⟨r2, g2, b2⟩ := c2
  unfold interpColor
  rw [hq]
  simp only
  rw [show ((r1 : ℚ) + 1 * ((r2 : ℚ) - r1)) = (r2 : ℚ) by ring,
    show ((g1 : ℚ) + 1 * ((g2 : ℚ) - g1)) = (g2 : ℚ) by ring,
    show ((b1 : ℚ) + 1 * ((b2 : ℚ) - b1)) = (b2 : ℚ) by ring,
    pyInt_intCast, pyInt_intCast, pyInt_intCast]

/-- A single interpolated channel stays between the endpoint channels. -/

theorem interpChannel_bounds (a b : ℤ) (k : ℕ) (st : ℤ)
    (hst : 0 < st) (hk : (k : ℤ) ≤ st) :
    min a b ≤ pyInt ((a : ℚ) + ((k : ℚ) / (st : ℚ)) * ((b : ℚ) - (a : ℚ))) ∧
      pyInt ((a : ℚ) + ((k : ℚ) / (st : ℚ)) * ((b : ℚ) - (a : ℚ))) ≤ max a b := by
  have hstq : (0 : ℚ) < (st : ℚ) := by exact_mod_cast hst
  have hf0 : (0 : ℚ) ≤ ((k : ℚ) / (st : ℚ)) := div_nonneg (by positivity) hstq.le
  have hf1 : ((k : ℚ) / (st : ℚ)) ≤ 1 := by
    rw [div_le_one hstq]
    exact_mod_cast hk
  rcases le_total a b with hab | hab
  · have habq : (a : ℚ) ≤ (b : ℚ) := by exact_mod_cast hab
    rw [min_eq_left hab, max_eq_right hab]
    refine pyInt_mem_Icc ?_ ?_
    · nlinarith [mul_nonneg hf0 (sub_nonneg.mpr habq)]
    · nlinarith [mul_nonneg (sub_nonneg.mpr hf1) (sub_nonneg.mpr habq)]
  · have habq : (b : ℚ) ≤ (a : ℚ) := by exact_mod_cast hab
    rw [min_eq_right hab, max_eq_left hab]
    refine pyInt_mem_Icc ?_ ?_
    · nlinarith [mul_nonneg (sub_nonneg.mpr hf1) (sub_nonneg.mpr habq)]
    · nlinarith [mul_nonneg hf0 (sub_nonneg.mpr habq)]

/-- C4 counterexample: for coincident endpoints (`steps = 1` but only a
single point with `k = 0` is emitted) the last emitted point carries
`color1`, not `color2`. -/

theorem bresenhamColor_last_cex :
    (bresenhamColor 0 0 0 0 (0, 0, 0) (255, 0, 0)).getLast? ≠
      some (0, 0, 255, 0, 0) := by
  have h : bresenhamColor 0 0 0 0 (0, 0, 0) (255, 0, 0) =
      [(0, 0, interpColor (0, 0, 0) (255, 0, 0) 0 (bresSteps 0 0 0 0))] := by
    unfold bresenhamColor
    rw [show bresenhamTrace 0 0 0 0 = [(0, 0, 0)] from by decide]
    rfl
  rw [h, interpColor_zero]
  decide

/-- C4 amended: the first emitted colored point carries exactly `color1`,
and, provided the two endpoints are distinct, the last emitted point
carries exactly `color2` (for coincident endpoints the single point
carries `color1`). -/

theorem bresenhamColor_first_last (x1 y1 x2 y2 : ℤ) (c1 c2 : ℤ × ℤ × ℤ)
    (hne : (x1, y1) ≠ (x2, y2)) :
    (bresenhamColor x1 y1 x2 y2 c1 c2).head? = some (x1, y1, c1) ∧
      (bresenhamColor x1 y1 x2 y2 c1 c2).getLast? = some (x2, y2, c2) := by
  obtain ⟨L, hLeq, hLlen, hLhead, hLlast, -⟩ := bresenhamTrace_spec x1 y1 x2 y2
  have hM1 : (1 : ℤ) ≤ max |x2 - x1| |y2 - y1| := by
    have hne' : x1 ≠ x2 ∨ y1 ≠ y2 := by
      by_contra hcon
      push_neg at hcon
      exact hne (by rw [hcon.1, hcon.2])
    rcases hne' with h | h
    · exact le_trans (Int.one_le_abs (sub_ne_zero.mpr (Ne.symm h))) (le_max_left _ _)
    · exact le_trans (Int.one_le_abs (sub_ne_zero.mpr (Ne.symm h))) (le_max_right _ _)
  have hsteq : bresSteps x1 y1 x2 y2 = max |x2 - x1| |y2 - y1| := max_eq_left hM1
  have hMt : (((max |x2 - x1| |y2 - y1|).toNat : ℤ)) = max |x2 - x1| |y2 - y1| :=
    Int.toNat_of_nonneg (le_trans (abs_nonneg _) (le_max_left _ _))
  constructor
  · unfold bresenhamColor
    rw [hLeq, List.head?_map, hLhead]
    simp [interpColor_zero]
  · unfold bresenhamColor
    rw [hLeq, List.getLast?_map, hLlast]
    have hlast : interpColor c1 c2 (max |x2 - x1| |y2 - y1|).toNat
        (bresSteps x1 y1 x2 y2) = c2 := by
      refine interpColor_last c1 c2 _ _ ?_ ?_
      · rw [hsteq]
        exact ne_of_gt (lt_of_lt_of_le one_pos hM1)
      · rw [hMt, hsteq]
    simp [hlast]

/-- C4 witness at the concrete line `(0,0) → (2,1)`. -/

theorem bresenhamColor_first_last_witness :
    ((0 : ℤ), (0 : ℤ)) ≠ ((2 : ℤ), (1 : ℤ)) ∧
      ((bresenhamColor 0 0 2 1 (10, 20, 30) (40, 50, 60)).head? =
          some (0, 0, 10, 20, 30) ∧
        (bresenhamColor 0 0 2 1 (10, 20, 30) (40, 50, 60)).getLast? =
          some (2, 1, 40, 50, 60)) :=
  ⟨by decide, bresenhamColor_first_last 0 0 2 1 (10, 20, 30) (40, 50, 60) (by decide)⟩

/-- C10: with byte-valued endpoint colors, every color emitted along a
colored Bresenham line stays channel-wise inside the closed interval
spanned by the endpoint channels, hence is itself byte-valued. -/

theorem bresenhamColor_channel_bounds (x1 y1 x2 y2 : ℤ) (c1 c2 : ℤ × ℤ × ℤ)
    (h1 : byteColor c1) (h2 : byteColor c2) :
    ∀ pt ∈ bresenhamColor x1 y1 x2 y2 c1 c2,
      betweenColor c1 c2 pt.2.2 ∧ byteColor pt.2.2 := by
  intro pt hpt
  obtain ⟨L, hLeq, -, -, -, hmem⟩ := bresenhamTrace_spec x1 y1 x2 y2
  unfold bresenhamColor at hpt
  rw [hLeq] at hpt
  obtain ⟨t, ht, rfl⟩ := List.mem_map.mp hpt
  have hk := hmem t ht
  have habs0 : (0 : ℤ) ≤ max |x2 - x1| |y2 - y1| :=
    le_trans (abs_nonneg _) (le_max_left _ _)
  have hst0 : (0 : ℤ) < bresSteps x1 y1 x2 y2 :=
    lt_of_lt_of_le one_pos (le_max_right _ _)
  have hkst : (t.2.2 : ℤ) ≤ bresSteps x1 y1 x2 y2 := by
    have hc : (t.2.2 : ℤ) ≤ ((max |x2 - x1| |y2 - y1|).toNat : ℤ) := by
      exact_mod_cast hk
    rw [Int.toNat_of_nonneg habs0] at hc
    exact le_trans hc (le_max_left _ _)
  have hr := interpChannel_bounds c1.1 c2.1 t.2.2 _ hst0 hkst
  have hg := interpChannel_bounds c1.2.1 c2.2.1 t.2.2 _ hst0 hkst
  have hb := interpChannel_bounds c1.2.2 c2.2.2 t.2.2 _ hst0 hkst
  obtain ⟨h1a, h1b, h1c, h1d, h1e, h1f⟩ := h1
  obtain ⟨h2a, h2b, h2c, h2d, h2e, h2f⟩ := h2
  constructor
  · exact ⟨hr.1, hr.2, hg.1, hg.2, hb.1, hb.2⟩
  · exact ⟨le_trans (le_min h1a h2a) hr.1, le_trans hr.2 (max_le h1b h2b),
      le_trans (le_min h1c h2c) hg.1, le_trans hg.2 (max_le h1d h2d),
      le_trans (le_min h1e h2e) hb.1, le_trans hb.2 (max_le h1f h2f)⟩

/-- C10 witness at the interior point of the concrete line `(0,0) → (2,1)`. -/

theorem bresenhamColor_channel_bounds_witness :
    byteColor (10, 20, 30) ∧ byteColor (255, 0, 0) ∧
      (betweenColor (10, 20, 30) (255, 0, 0)
          ((1 : ℤ), (0 : ℤ), interpColor (10, 20, 30) (255, 0, 0) 1 (bresSteps 0 0 2 1)).2.2 ∧
        byteColor
          ((1 : ℤ), (0 : ℤ), interpColor (10, 20, 30) (255, 0, 0) 1 (bresSteps 0 0 2 1)).2.2) :=
  ⟨by decide, by decide,
    bresenhamColor_channel_bounds 0 0 2 1 (10, 20, 30) (255, 0, 0) (by decide) (by decide)
      _ (List.mem_map_of_mem _
        (show ((1 : ℤ), (0 : ℤ), (1 : ℕ)) ∈ bresenhamTrace 0 0 2 1 from by decide))⟩

/-- Writing a line into the dict sets an in-bounds coordinate to the
line's last color there, leaving it untouched if the line misses it. -/

theorem writeLineColor_at (W H : ℤ) (p : ℤ × ℤ) (hp : inBounds W H p.1 p.2) :
    ∀ (line : List (ℤ × ℤ × ℤ × ℤ × ℤ)) (m : ℤ × ℤ → Option (ℤ × ℤ × ℤ)),
      writeLineColor W H m line p =
        match lastColorAt line p with
        | some c => some c
        | none => m p := by
  intro line
  induction line with
  | nil => intro m; rfl
  | cons pt l ih =>
    intro m
    have hstep : writeLineColor W H m (pt :: l) =
        writeLineColor W H
          (if inBounds W H pt.1 pt.2.1
            then fun q => if q = (pt.1, pt.2.1) then some pt.2.2 else m q
            else m) l := by
      unfold writeLineColor
      rw [List.foldl_cons]
    rw [hstep, ih]
    rcases hcase : lastColorAt l p with - | c
    · simp only [lastColorAt, hcase]
      by_cases hhit : p = (pt.1, pt.2.1)
      · rw [if_pos hhit]
        have hin : inBounds W H pt.1 pt.2.1 := by
          rw [hhit] at hp
          exact hp
        rw [if_pos hin]
        rw [if_pos hhit]
      · rw [if_neg hhit]
        by_cases hin : inBounds W H pt.1 pt.2.1
        · rw [if_pos hin, if_neg hhit]
        · rw [if_neg hin]
    · simp only [lastColorAt, hcase]

/-- C5: in color mode, when edges are composited in list order and the
later edge `e2` covers an in-bounds pixel `p` (its last write there being
color `c`), the frame dict holds `c` at `p`, overwriting whatever any
earlier edge (such as `e1`, with a different color `c'`) wrote there. -/

theorem compositeColor_last_write (W H : ℤ) (proj : ℕ → ℤ × ℤ)
    (col : ℕ → ℤ × ℤ × ℤ) (es : List (ℕ × ℕ)) (e1 e2 : ℕ × ℕ) (p : ℤ × ℤ)
    (c c' : ℤ × ℤ × ℤ)
    (hp : inBounds W H p.1 p.2)
    (h1 : lastColorAt (edgeLineColor proj col e1) p = some c')
    (h2 : lastColorAt (edgeLineColor proj col e2) p = some c)
    (hne : c' ≠ c) :
    compositeColor W H proj col (es ++ [e1, e2]) p = some c := by
  unfold compositeColor
  rw [List.foldl_append]
  simp only [List.foldl_cons, List.foldl_nil]
  rw [writeLineColor_at W H p hp, h2]

/-- C5 witness: the diagonals `(0,0)–(2,2)` (dark) and `(2,0)–(0,2)` (red)
cross at `(1,1)`; the frame keeps the red of the later edge. -/

theorem compositeColor_last_write_witness :
    lastColorAt (edgeLineColor projW colW (0, 1)) (1, 1) = some (10, 10, 10) ∧
      lastColorAt (edgeLineColor projW colW (2, 3)) (1, 1) = some (200, 0, 0) ∧
      compositeColor 80 24 projW colW [(0, 1), (2, 3)] (1, 1) = some (200, 0, 0) := by
  have hline1 : edgeLineColor projW colW (0, 1) =
      [(0, 0, (10, 10, 10)), (1, 1, (10, 10, 10)), (2, 2, (10, 10, 10))] := by
    show bresenhamColor 0 0 2 2 (10, 10, 10) (10, 10, 10) = _
    unfold bresenhamColor
    rw [show bresenhamTrace 0 0 2 2 = [(0, 0, 0), (1, 1, 1), (2, 2, 2)] from by decide]
    simp [interpColor_same]
  have hline2 : edgeLineColor projW colW (2, 3) =
      [(2, 0, (200, 0, 0)), (1, 1, (200, 0, 0)), (0, 2, (200, 0, 0))] := by
    show bresenhamColor 2 0 0 2 (200, 0, 0) (200, 0, 0) = _
    unfold bresenhamColor
    rw [show bresenhamTrace 2 0 0 2 = [(2, 0, 0), (1, 1, 1), (0, 2, 2)] from by decide]
    simp [interpColor_same]
  have h1 : lastColorAt (edgeLineColor projW colW (0, 1)) (1, 1) = some (10, 10, 10) := by
    rw [hline1]; decide
  have h2 : lastColorAt (edgeLineColor projW colW (2, 3)) (1, 1) = some (200, 0, 0) := by
    rw [hline2]; decide
  exact ⟨h1, h2,
    compositeColor_last_write 80 24 projW colW [] (0, 1) (2, 3) (1, 1)
      (200, 0, 0) (10, 10, 10) (by decide) h1 h2 (by decide)⟩

theorem writeLineColor_bounds (W H : ℤ) :
    ∀ (line : List (ℤ × ℤ × ℤ × ℤ × ℤ)) (m : ℤ × ℤ → Option (ℤ × ℤ × ℤ)) (p : ℤ × ℤ),
      (m p = none ∨ inBounds W H p.1 p.2) →
      (writeLineColor W H m line p = none ∨ inBounds W H p.1 p.2) := by
  intro line
  induction line with
  | nil => intro m p hmp; exact hmp
  | cons pt l ih =>
    intro m p hmp
    have hstep : writeLineColor W H m (pt :: l) =
        writeLineColor W H
          (if inBounds W H pt.1 pt.2.1
            then fun q => if q = (pt.1, pt.2.1) then some pt.2.2 else m q
            else m) l := by
      unfold writeLineColor
      rw [List.foldl_cons]
    rw [hstep]
    refine ih _ p ?_
    by_cases hin : inBounds W H pt.1 pt.2.1
    · rw [if_pos hin]
      by_cases hq : p = (pt.1, pt.2.1)
      · right
        rw [hq]
        exact hin
      · rw [if_neg hq]
        exact hmp
    · rw [if_neg hin]
      exact hmp

theorem writeLinePlain_bounds (W H : ℤ) :
    ∀ (line : List (ℤ × ℤ)) (s : ℤ × ℤ → Bool) (p : ℤ × ℤ),
      (s p = false ∨ inBounds W H p.1 p.2) →
      (writeLinePlain W H s line p = false ∨ inBounds W H p.1 p.2) := by
  intro line
  induction line with
  | nil => intro s p hsp; exact hsp
  | cons pt l ih =>
    intro s p hsp
    have hstep : writeLinePlain W H s (pt :: l) =
        writeLinePlain W H
          (if inBounds W H pt.1 pt.2
            then fun q => if q = pt then true else s q
            else s) l := by
      unfold writeLinePlain
      rw [List.foldl_cons]
    rw [hstep]
    refine ih _ p ?_
    by_cases hin : inBounds W H pt.1 pt.2
    · rw [if_pos hin]
      by_cases hq : p = pt
      · right
        rw [hq]
        exact hin
      · rw [if_neg hq]
        exact hsp
    · rw [if_neg hin]
      exact hsp

theorem compositeColor_go_bounds (W H : ℤ) (proj : ℕ → ℤ × ℤ)
    (col : ℕ → ℤ × ℤ × ℤ) :
    ∀ (edges : List (ℕ × ℕ)) (m : ℤ × ℤ → Option (ℤ × ℤ × ℤ)),
      (∀ q, m q = none ∨ inBounds W H q.1 q.2) →
      ∀ p, (edges.foldl (fun m e => writeLineColor W H m (edgeLineColor proj col e)) m) p
          = none ∨ inBounds W H p.1 p.2 := by
  intro edges
  induction edges with
  | nil => intro m hm p; exact hm p
  | cons e es ih =>
    intro m hm p
    rw [List.foldl_cons]
    exact ih _ (fun q => writeLineColor_bounds W H _ _ q (hm q)) p

theorem compositeSet_go_bounds (W H : ℤ) (proj : ℕ → ℤ × ℤ) :
    ∀ (edges : List (ℕ × ℕ)) (s : ℤ × ℤ → Bool),
      (∀ q, s q = false ∨ inBounds W H q.1 q.2) →
      ∀ p, (edges.foldl
            (fun s e =>
              writeLinePlain W H s
                (bresenham (proj e.1).1 (proj e.1).2 (proj e.2).1 (proj e.2).2)) s) p
          = false ∨ inBounds W H p.1 p.2 := by
  intro edges
  induction edges with
  | nil => intro s hs p; exact hs p
  | cons e es ih =>
    intro s hs p
    rw [List.foldl_cons]
    exact ih _ (fun q => writeLinePlain_bounds W H _ _ q (hs q)) p

/-- C6: every coordinate recorded in the composited frame (either mode) is
inside `[0, W) × [0, H)`; out-of-bounds rasterized points are silently
dropped by the bounds test. -/

theorem composite_inBounds (W H : ℤ) (proj : ℕ → ℤ × ℤ) (col : ℕ → ℤ × ℤ × ℤ)
    (edges : List (ℕ × ℕ)) (p : ℤ × ℤ) :
    (compositeColor W H proj col edges p = none ∨ inBounds W H p.1 p.2) ∧
      (compositeSet W H proj edges p = false ∨ inBounds W H p.1 p.2) := by
  constructor
  · exact compositeColor_go_bounds W H proj col edges _ (fun q => Or.inl rfl) p
  · exact compositeSet_go_bounds W H proj edges _ (fun q => Or.inl rfl) p

/-- C9: an empty vertex list is rejected before the animation ever runs:
the export operator cancels, so no renderer script (and no frame) is
produced; conversely any run that is not cancelled has a non-empty vertex
list. -/

theorem executeExport_empty_cancelled (isMesh : Bool) (verts : List (ℚ × ℚ × ℚ))
    (meshEdges : List (ℕ × ℕ)) :
    executeExport isMesh [] meshEdges = ExportResult.cancelled ∧
      (executeExport isMesh verts meshEdges = ExportResult.cancelled ∨ verts ≠ []) := by
  refine ⟨by cases isMesh <;> rfl, ?_⟩
  cases isMesh
  · exact Or.inl rfl
  · cases verts with
    | nil => exact Or.inl rfl
    | cons v vs => exact Or.inr (by simp)
